import Mathlib

/-!
Shallow embedding of the moleculer-mcp bridge core (Name Sanitizer,
Schema Factory, Service Catalogue) and proofs about the behaviour its
specification claims.

JavaScript strings are modelled as Lean `String` / `List Char`; all the
characters the sanitizer keeps are ASCII, where UTF-16 code units and
code points coincide, so the `List Char` view is faithful for every
result examined here.  JavaScript runtime exceptions are modelled with
`Except String`.
-/

/-- Characters accepted by the sanitizer pattern /^[A-Za-z0-9_]{1,64}$/
(an ASCII letter, an ASCII digit, or an underscore). -/
def legalChar (c : Char) : Bool :=
  ('A' ≤ c && c ≤ 'Z') || ('a' ≤ c && c ≤ 'z') || ('0' ≤ c && c ≤ '9') || c == '_'

/-- ASCII lower-case letter test, the `[a-z]` class of the camel-case regex. -/
def asciiLower (c : Char) : Bool := 'a' ≤ c && c ≤ 'z'

/-- ASCII upper-case letter test, the `[A-Z]` class of the camel-case regex. -/
def asciiUpper (c : Char) : Bool := 'A' ≤ c && c ≤ 'Z'

/-- JS `.replace(/[^A-Za-z0-9_]/g, '_')`: every character outside the legal
class becomes an underscore.  (An astral character is two UTF-16 units and
would become two underscores in JS, but the following collapse step makes
that indistinguishable from one underscore.) -/
def underscoreIllegal (l : List Char) : List Char :=
  l.map (fun c => if legalChar c then c else '_')

/-- JS `.replace(/_+/g, '_')`: collapse every run of underscores to one
underscore (each kept element is the last of its run). -/
def collapseUnderscores : List Char → List Char
  | [] => []
  | [c] => [c]
  | a :: b :: rest =>
    if a == '_' && b == '_' then collapseUnderscores (b :: rest)
    else a :: collapseUnderscores (b :: rest)

/-- JS `.replace(/^_+|_+$/g, '')`: drop the leading and the trailing run of
underscores. -/
def trimUnderscores (l : List Char) : List Char :=
  ((l.dropWhile (· == '_')).reverse.dropWhile (· == '_')).reverse

/-- JS `.replace(/([a-z])([A-Z])/g, '$1_$2')`: insert an underscore between a
lower-case letter and the upper-case letter that follows it.  The global
regex consumes the matched pair and rescans after it, but the pair it then
skips starts with an upper-case letter and can never match, so inserting at
every lower-upper adjacency is the same transformation. -/
def insertCamelUnderscores : List Char → List Char
  | [] => []
  | [c] => [c]
  | a :: b :: rest =>
    if asciiLower a && asciiUpper b then a :: '_' :: insertCamelUnderscores (b :: rest)
    else a :: insertCamelUnderscores (b :: rest)

/-- List-level body of `NameSanitizer.stripForbidden`: replace forbidden
characters, collapse underscores, trim edge underscores, substitute the
literal fallback "action" for an empty result, truncate to 64 characters. -/
def stripForbiddenList (l : List Char) : List Char :=
  let cleaned := underscoreIllegal l
  let collapsed := collapseUnderscores cleaned
  let trimmed := trimUnderscores collapsed
  let nonempty := if trimmed = [] then "action".toList else trimmed
  nonempty.take 64

/-- List-level body of `NameSanitizer.toSnake`: camel-case split, forbidden
characters to underscores, lower-casing, underscore collapse, edge trim.
After the forbidden-character replacement only ASCII remains, so JS
`toLowerCase` is `Char.toLower` pointwise; after the collapse the edge runs
have length one, so the final `/^_|_$/g` strip equals `trimUnderscores`. -/
def toSnakeList (l : List Char) : List Char :=
  let camel := insertCamelUnderscores l
  let cleaned := underscoreIllegal camel
  let lowered := cleaned.map Char.toLower
  let collapsed := collapseUnderscores lowered
  trimUnderscores collapsed

/-- The private VALID_NAME_PATTERN = /^[A-Za-z0-9_]{1,64}$/ of NameSanitizer. -/
def validNamePattern (l : List Char) : Bool :=
  decide (1 ≤ l.length) && decide (l.length ≤ 64) && l.all legalChar

/-- NameSanitizer.stripForbidden (pure, total). -/
def NameSanitizer.stripForbidden (input : String) : String :=
  ⟨stripForbiddenList input.toList⟩

/-- NameSanitizer.toSnake (pure, total). -/
def NameSanitizer.toSnake (input : String) : String :=
  ⟨toSnakeList input.toList⟩

/-- NameSanitizer.sanitizeActionName: toSnake then stripForbidden, then a
defensive test of the legality pattern that throws on failure. -/
def NameSanitizer.sanitizeActionName (actionName : String) : Except String String :=
  let sanitized := NameSanitizer.stripForbidden (NameSanitizer.toSnake actionName)
  if validNamePattern sanitized.toList then .ok sanitized
  else .error ("Failed to sanitize action name: " ++ actionName ++ " -> " ++ sanitized)

/-- The while loop of NameSanitizer.ensureUnique.  `counter` is the JS
counter before its post-increment use; the loop throws when the incremented
counter exceeds 1000 (so the candidate `base_1000` is built but never
tested). -/
def NameSanitizer.ensureUniqueLoop (base : String) (used : List String)
    (candidate : String) (counter : Nat) : Except String String :=
  if candidate ∈ used then
    let next := base ++ "_" ++ Nat.repr counter
    let counter' := counter + 1
    if counter' > 1000 then .error ("Failed to generate unique name for: " ++ base)
    else NameSanitizer.ensureUniqueLoop base used next counter'
  else .ok candidate
termination_by 1001 - counter
decreasing_by
  simp only [gt_iff_lt, not_lt] at *
  omega

/-- NameSanitizer.ensureUnique: first free candidate among
base, base_1, base_2, …, erroring out after 1000 attempts.  The JS
`Set` of used names is modelled as a list queried by membership. -/
def NameSanitizer.ensureUnique (baseName : String) (usedNames : List String) :
    Except String String :=
  NameSanitizer.ensureUniqueLoop baseName usedNames baseName 1

instance : DecidableEq (Except String String) := fun
  | .ok a, .ok b =>
    match decEq a b with
    | isTrue h => isTrue (h ▸ rfl)
    | isFalse h => isFalse (fun he => h (Except.ok.inj he))
  | .ok _, .error _ => isFalse (fun he => Except.noConfusion he)
  | .error _, .ok _ => isFalse (fun he => Except.noConfusion he)
  | .error a, .error b =>
    match decEq a b with
    | isTrue h => isTrue (h ▸ rfl)
    | isFalse h => isFalse (fun he => h (Except.error.inj he))

/-! Helper lemmas about the sanitizer's list passes. -/

theorem collapseUnderscores_sublist (l : List Char) :
    List.Sublist (collapseUnderscores l) l := by
  induction l using collapseUnderscores.induct with
  | case1 => simp [collapseUnderscores]
  | case2 c => simp [collapseUnderscores]
  | case3 a b rest h ih =>
    rw [collapseUnderscores, if_pos h]
    exact ih.cons a
  | case4 a b rest h ih =>
    rw [collapseUnderscores, if_neg h]
    exact ih.cons₂ a

theorem trimUnderscores_sublist (l : List Char) : List.Sublist (trimUnderscores l) l := by
  have h1 : List.Sublist ((l.dropWhile (· == '_')).reverse.dropWhile (· == '_'))
      (l.dropWhile (· == '_')).reverse := List.dropWhile_sublist _
  have h2 : List.Sublist (trimUnderscores l) (l.dropWhile (· == '_')) := by
    have h3 := h1.reverse
    simpa [trimUnderscores] using h3
  exact h2.trans (List.dropWhile_sublist _)

theorem all_legal_of_sublist {s l : List Char} (hs : List.Sublist s l)
    (hl : l.all legalChar = true) : s.all legalChar = true := by
  simp only [List.all_eq_true] at *
  exact fun c hc => hl c (hs.subset hc)

theorem underscoreIllegal_all_legal (l : List Char) :
    (underscoreIllegal l).all legalChar = true := by
  simp only [underscoreIllegal, List.all_map, List.all_eq_true, Function.comp]
  intro a _
  by_cases h : legalChar a = true
  · rw [if_pos h]
    exact h
  · rw [if_neg h]
    decide

theorem stripForbiddenList_all_legal (l : List Char) :
    (stripForbiddenList l).all legalChar = true := by
  unfold stripForbiddenList
  set cleaned := underscoreIllegal l with hc
  have hall : (trimUnderscores (collapseUnderscores cleaned)).all legalChar = true :=
    all_legal_of_sublist
      ((trimUnderscores_sublist _).trans (collapseUnderscores_sublist _))
      (underscoreIllegal_all_legal l)
  by_cases he : trimUnderscores (collapseUnderscores cleaned) = []
  · simp only [he, if_pos]
    decide
  · simp only [if_neg he]
    exact all_legal_of_sublist (List.take_sublist _ _) hall

theorem stripForbiddenList_length (l : List Char) :
    1 ≤ (stripForbiddenList l).length ∧ (stripForbiddenList l).length ≤ 64 := by
  unfold stripForbiddenList
  by_cases he : trimUnderscores (collapseUnderscores (underscoreIllegal l)) = []
  · simp only [he, if_pos]
    decide
  · simp only [if_neg he]
    constructor
    · have : trimUnderscores (collapseUnderscores (underscoreIllegal l)) ≠ [] := he
      rcases List.exists_cons_of_ne_nil this with ⟨a, t, hat⟩
      simp [hat]
    · simpa using List.length_take_le 64 _

/-- C5: for every input string, stripForbidden terminates without error and
returns a string matching the legality pattern /^[A-Za-z0-9_]{1,64}$/:
non-empty, at most 64 characters, each an ASCII letter, digit, or
underscore. -/
theorem claim_C5_stripForbidden_always_legal (s : String) :
    validNamePattern (NameSanitizer.stripForbidden s).toList = true ∧
    1 ≤ (NameSanitizer.stripForbidden s).length ∧
    (NameSanitizer.stripForbidden s).length ≤ 64 ∧
    (NameSanitizer.stripForbidden s).toList.all legalChar = true := by
  have hlen := stripForbiddenList_length s.toList
  have hall := stripForbiddenList_all_legal s.toList
  have hvp : validNamePattern (stripForbiddenList s.toList) = true := by
    simp only [validNamePattern, Bool.and_eq_true, decide_eq_true_eq, List.all_eq_true]
    exact ⟨⟨hlen.1, hlen.2⟩, List.all_eq_true.mp hall⟩
  exact ⟨hvp, hlen.1, hlen.2, hall⟩

/-! Helper lemmas about the ensureUnique while loop. -/

theorem ensureUniqueLoop_not_mem {base : String} {used : List String}
    {candidate : String} {counter : Nat} (h : candidate ∉ used) :
    NameSanitizer.ensureUniqueLoop base used candidate counter = .ok candidate := by
  rw [NameSanitizer.ensureUniqueLoop.eq_def]
  simp [h]

theorem ensureUniqueLoop_mem_step {base : String} {used : List String}
    {candidate : String} {counter : Nat} (h : candidate ∈ used)
    (hc : counter + 1 ≤ 1000) :
    NameSanitizer.ensureUniqueLoop base used candidate counter =
      NameSanitizer.ensureUniqueLoop base used (base ++ "_" ++ Nat.repr counter)
        (counter + 1) := by
  rw [NameSanitizer.ensureUniqueLoop.eq_def]
  simp only [if_pos h]
  rw [if_neg (by omega)]

theorem ensureUniqueLoop_mem_overflow {base : String} {used : List String}
    {candidate : String} {counter : Nat} (h : candidate ∈ used)
    (hc : counter + 1 > 1000) :
    NameSanitizer.ensureUniqueLoop base used candidate counter =
      .error ("Failed to generate unique name for: " ++ base) := by
  rw [NameSanitizer.ensureUniqueLoop.eq_def]
  simp only [if_pos h]
  rw [if_pos (by omega)]

theorem ensureUniqueLoop_finds (base : String) (used : List String) (k : Nat)
    (hk1 : 1 ≤ k) (hk9 : k ≤ 999)
    (hfree : (base ++ "_" ++ Nat.repr k) ∉ used)
    (hused : ∀ j, 1 ≤ j → j < k → (base ++ "_" ++ Nat.repr j) ∈ used) :
    ∀ n i candidate, k - i = n → 1 ≤ i → i ≤ k → candidate ∈ used →
      NameSanitizer.ensureUniqueLoop base used candidate i =
        .ok (base ++ "_" ++ Nat.repr k) := by
  intro n
  induction n with
  | zero =>
    intro i candidate hn h1 hik hcand
    have hik' : i = k := by omega
    subst hik'
    rw [ensureUniqueLoop_mem_step hcand (by omega)]
    exact ensureUniqueLoop_not_mem hfree
  | succ n ih =>
    intro i candidate hn h1 hik hcand
    have hlt : i < k := by omega
    rw [ensureUniqueLoop_mem_step hcand (by omega)]
    exact ih (i + 1) _ (by omega) (by omega) (by omega) (hused i h1 hlt)

theorem ensureUniqueLoop_allUsed (base : String) (used : List String)
    (hused : ∀ j, 1 ≤ j → j ≤ 999 → (base ++ "_" ++ Nat.repr j) ∈ used) :
    ∀ n i candidate, 1000 - i = n → 1 ≤ i → i ≤ 1000 → candidate ∈ used →
      NameSanitizer.ensureUniqueLoop base used candidate i =
        .error ("Failed to generate unique name for: " ++ base) := by
  intro n
  induction n with
  | zero =>
    intro i candidate hn h1 hi hcand
    have hik : i = 1000 := by omega
    subst hik
    exact ensureUniqueLoop_mem_overflow hcand (by omega)
  | succ n ih =>
    intro i candidate hn h1 hi hcand
    have hi9 : i ≤ 999 := by omega
    rw [ensureUniqueLoop_mem_step hcand (by omega)]
    exact ih (i + 1) _ (by omega) (by omega) (by omega) (hused i h1 hi9)

/-- C6: ensureUnique returns the candidate unchanged when it is not among
the used names; otherwise it returns the first of candidate_1, candidate_2,
… not in the set (in particular ensureUnique "test" with used "test" is
"test_1", and with used "test"/"test_1"/"test_2" it is "test_3"); and when
every candidate through the safety bound is taken it fails with the naming
error instead of looping forever. -/
theorem claim_C6_ensureUnique_spec :
    (∀ base used, base ∉ used → NameSanitizer.ensureUnique base used = .ok base) ∧
    (∀ base used k, 1 ≤ k → k ≤ 999 → base ∈ used →
      (∀ j, 1 ≤ j → j < k → (base ++ "_" ++ Nat.repr j) ∈ used) →
      (base ++ "_" ++ Nat.repr k) ∉ used →
      NameSanitizer.ensureUnique base used = .ok (base ++ "_" ++ Nat.repr k)) ∧
    (∀ base used, base ∈ used →
      (∀ j, 1 ≤ j → j ≤ 999 → (base ++ "_" ++ Nat.repr j) ∈ used) →
      NameSanitizer.ensureUnique base used =
        .error ("Failed to generate unique name for: " ++ base)) ∧
    NameSanitizer.ensureUnique "test" ["test"] = .ok "test_1" ∧
    NameSanitizer.ensureUnique "test" ["test", "test_1", "test_2"] = .ok "test_3" := by
  refine ⟨?_, ?_, ?_, ?_, ?_⟩
  · intro base used h
    exact ensureUniqueLoop_not_mem h
  · intro base used k hk1 hk9 hbase hused hfree
    exact ensureUniqueLoop_finds base used k hk1 hk9 hfree hused (k - 1) 1 base rfl
      (by omega) hk1 hbase
  · intro base used hbase hused
    exact ensureUniqueLoop_allUsed base used hused 999 1 base rfl (by omega) (by omega) hbase
  · rw [NameSanitizer.ensureUnique,
      ensureUniqueLoop_mem_step (by decide) (by omega),
      ensureUniqueLoop_not_mem (by decide)]
    decide
  · rw [NameSanitizer.ensureUnique,
      ensureUniqueLoop_mem_step (by decide) (by omega),
      ensureUniqueLoop_mem_step (by decide) (by omega),
      ensureUniqueLoop_mem_step (by decide) (by omega),
      ensureUniqueLoop_not_mem (by decide)]
    decide

/-- Witness for C6 at concrete inputs. -/
theorem claim_C6_ensureUnique_spec_witness :
    NameSanitizer.ensureUnique "name" [] = .ok "name" ∧
    NameSanitizer.ensureUnique "a" ["a", "a_1"] = .ok "a_2" :=
  ⟨claim_C6_ensureUnique_spec.1 "name" [] (by decide),
   claim_C6_ensureUnique_spec.2.1 "a" ["a", "a_1"] 2 (by omega) (by omega) (by decide)
     (by
       intro j h1 h2
       have hj : j = 1 := by omega
       subst hj
       decide)
     (by decide)⟩

/-- Predicate used to state C9: the string has no run of two or more
consecutive underscores. -/
def noDoubleUnderscore : List Char → Bool
  | [] => true
  | [_] => true
  | a :: b :: rest => !(a == '_' && b == '_') && noDoubleUnderscore (b :: rest)

theorem underscoreIllegal_id {l : List Char} (h : l.all legalChar = true) :
    underscoreIllegal l = l := by
  unfold underscoreIllegal
  induction l with
  | nil => rfl
  | cons a t ih =>
    simp only [List.all_cons, Bool.and_eq_true] at h
    simp [h.1, ih h.2]

theorem collapseUnderscores_id {l : List Char} (h : noDoubleUnderscore l = true) :
    collapseUnderscores l = l := by
  induction l using collapseUnderscores.induct with
  | case1 => rfl
  | case2 c => rfl
  | case3 a b rest hab ih =>
    rw [noDoubleUnderscore] at h
    simp [hab] at h
  | case4 a b rest hab ih =>
    rw [noDoubleUnderscore] at h
    simp only [Bool.and_eq_true, Bool.not_eq_eq_eq_not, Bool.not_true] at h
    rw [collapseUnderscores, if_neg hab, ih h.2]

theorem dropWhile_underscore_id {l : List Char} (h : l.head? ≠ some '_') :
    l.dropWhile (· == '_') = l := by
  cases l with
  | nil => rfl
  | cons a t =>
    have ha : a ≠ '_' := by
      intro hc
      exact h (by simp [hc])
    simp [List.dropWhile_cons, ha]

theorem trimUnderscores_id {l : List Char} (h1 : l.head? ≠ some '_')
    (h2 : l.getLast? ≠ some '_') : trimUnderscores l = l := by
  unfold trimUnderscores
  rw [dropWhile_underscore_id h1]
  have hrev : l.reverse.head? ≠ some '_' := by
    rw [List.head?_reverse]
    exact h2
  rw [dropWhile_underscore_id hrev, List.reverse_reverse]

/-- C9 counterexample: the string "_a" consists only of legal characters,
has no run of consecutive underscores, is at most 64 characters long, and
is already underscore-collapsed, yet stripForbidden maps it to "a", not to
itself: the claimed "equal up to underscore-collapsing and truncation" and
the claimed identity both fail because stripForbidden also trims leading
and trailing underscores. -/
theorem claim_C9_counterexample :
    NameSanitizer.stripForbidden "_a" = "a" ∧
    ("_a" : String) ≠ "a" ∧
    ("_a" : String).toList.all legalChar = true ∧
    noDoubleUnderscore ("_a" : String).toList = true ∧
    collapseUnderscores ("_a" : String).toList = ("_a" : String).toList ∧
    ("_a" : String).length ≤ 64 := by
  refine ⟨rfl, by decide, by decide, by decide, by decide, by decide⟩

/-- C9 amended: on a string of only legal characters stripForbidden reduces
to underscore-collapsing, edge-underscore trimming, the "action" fallback
for an empty remainder, and truncation to 64 characters; in particular it
is the identity on every nonempty already-legal name of length at most 64
that has no run of consecutive underscores and neither starts nor ends with
an underscore. -/
theorem claim_C9_amended_legal_strings :
    (∀ s : String, s.toList.all legalChar = true →
      NameSanitizer.stripForbidden s =
        ⟨(if trimUnderscores (collapseUnderscores s.toList) = [] then "action".toList
          else trimUnderscores (collapseUnderscores s.toList)).take 64⟩) ∧
    (∀ s : String, s.toList.all legalChar = true → noDoubleUnderscore s.toList = true →
      s.toList ≠ [] → s.toList.head? ≠ some '_' → s.toList.getLast? ≠ some '_' →
      s.length ≤ 64 → NameSanitizer.stripForbidden s = s) := by
  have hbase : ∀ s : String, s.toList.all legalChar = true →
      NameSanitizer.stripForbidden s =
        ⟨(if trimUnderscores (collapseUnderscores s.toList) = [] then "action".toList
          else trimUnderscores (collapseUnderscores s.toList)).take 64⟩ := by
    intro s hall
    show (⟨stripForbiddenList s.toList⟩ : String) = _
    rw [stripForbiddenList]
    rw [underscoreIllegal_id hall]
  refine ⟨hbase, ?_⟩
  intro s hall hnd hne hhead hlast hlen
  rw [hbase s hall, collapseUnderscores_id hnd, trimUnderscores_id hhead hlast,
    if_neg hne]
  have hlen' : s.toList.length ≤ 64 := hlen
  rw [List.take_of_length_le hlen']
  cases s
  rfl

/-- Witness for the amended C9 at the concrete legal name "a_b". -/
theorem claim_C9_amended_legal_strings_witness :
    NameSanitizer.stripForbidden "a_b" = "a_b" :=
  claim_C9_amended_legal_strings.2 "a_b" (by decide) (by decide) (by decide)
    (by decide) (by decide) (by decide)

/-! Schema Factory embedding.  A SchemaNode is an arbitrary JSON-like
runtime value handed to the translator (Moleculer action `params`); a
ZodType is the zod validator the factory produces. -/

/-- Untyped runtime value fed to SchemaFactory (JS: any). -/
inductive SchemaNode where
  | null
  | bool (b : Bool)
  | num (n : Int)
  | str (s : String)
  | arr (elems : List SchemaNode)
  | obj (fields : List (String × SchemaNode))

/-- Zod validator shapes the factory can build. -/
inductive ZodType where
  | string
  | number
  | boolean
  | date
  | email
  | url
  | uuid
  | any
  | array (item : ZodType)
  | object (props : List (String × ZodType))
  | optional (t : ZodType)

/-- JS truthiness of a modelled value. -/
def truthy : SchemaNode → Bool
  | .null => false
  | .bool b => b
  | .num n => n != 0
  | .str s => s != ""
  | .arr _ => true
  | .obj _ => true

/-- JS `Object.entries`: own enumerable entries of a value — the fields of
an object, index/element pairs of an array, index/character pairs of a
string, nothing for other primitives. -/
def entriesOf : SchemaNode → List (String × SchemaNode)
  | .obj fs => fs
  | .arr xs => xs.enum.map (fun p => (Nat.repr p.1, p.2))
  | .str s => s.toList.enum.map (fun p => (Nat.repr p.1, SchemaNode.str ⟨[p.2]⟩))
  | _ => []

/-- JS property read `n[k]` on an object (first binding wins; JS object
keys are unique anyway). -/
def getKey (k : String) (n : SchemaNode) : Option SchemaNode :=
  match n with
  | .obj fs => List.lookup k fs
  | _ => none

/-- JS `k in n`. -/
def hasKeyB (k : String) (n : SchemaNode) : Bool := (getKey k n).isSome

/-- JS `n.type === tag` (strict string equality). -/
def isTypeTag (n : SchemaNode) (tag : String) : Bool :=
  match getKey "type" n with
  | some (.str s) => s == tag
  | _ => false

/-- JS `n.optional === true` (strict equality with the boolean true). -/
def optionalFlagTrue (n : SchemaNode) : Bool :=
  match getKey "optional" n with
  | some (.bool b) => b
  | _ => false

/-- JS `schema.props || schema` in convertToZodSchemaProps. -/
def resolveProps (fs : List (String × SchemaNode)) : SchemaNode :=
  match List.lookup "props" fs with
  | some p => if truthy p then p else .obj fs
  | none => .obj fs

mutual

/-- Structural size of a node (recursion measure for the factory; string
contents count for one so that the entries of a string stay below the
object that carries it). -/
def nodeSz : SchemaNode → Nat
  | .null => 1
  | .bool _ => 1
  | .num _ => 1
  | .str _ => 1
  | .arr xs => 1 + listSz xs
  | .obj fs => 1 + fieldsSz fs

/-- Size of an element list. -/
def listSz : List SchemaNode → Nat
  | [] => 0
  | x :: xs => 1 + nodeSz x + listSz xs

/-- Size of a field list. -/
def fieldsSz : List (String × SchemaNode) → Nat
  | [] => 0
  | e :: fs => 1 + nodeSz e.2 + fieldsSz fs

end

theorem mem_fieldsSz {fs : List (String × SchemaNode)} {k : String} {v : SchemaNode}
    (h : (k, v) ∈ fs) : nodeSz v < fieldsSz fs := by
  induction fs with
  | nil => cases h
  | cons a t ih =>
    rcases List.mem_cons.mp h with heq | ht
    · subst heq
      simp only [fieldsSz]
      omega
    · have := ih ht
      simp only [fieldsSz]
      omega

theorem mem_listSz {xs : List SchemaNode} {x : SchemaNode} (h : x ∈ xs) :
    nodeSz x < listSz xs := by
  induction xs with
  | nil => cases h
  | cons a t ih =>
    rcases List.mem_cons.mp h with rfl | ht
    · simp only [listSz]
      omega
    · have := ih ht
      simp only [listSz]
      omega

theorem lookup_fieldsSz {fs : List (String × SchemaNode)} {k : String} {v : SchemaNode}
    (h : List.lookup k fs = some v) : nodeSz v < fieldsSz fs := by
  induction fs with
  | nil => simp [List.lookup] at h
  | cons a t ih =>
    obtain ⟨k', v'⟩ := a
    simp only [List.lookup] at h
    split at h
    · obtain rfl : v' = v := Option.some.inj h
      simp only [fieldsSz]
      omega
    · have := ih h
      simp only [fieldsSz]
      omega

theorem entriesOf_value_sz {p : SchemaNode} {k : String} {v : SchemaNode}
    (h : (k, v) ∈ entriesOf p) : nodeSz v ≤ nodeSz p := by
  cases p with
  | obj fs =>
    simp only [entriesOf] at h
    have := mem_fieldsSz h
    simp only [nodeSz]
    omega
  | arr xs =>
    simp only [entriesOf, List.mem_map] at h
    obtain ⟨q, hq, hqe⟩ := h
    have hv : v = q.2 := (Prod.mk.injEq _ _ _ _).mp hqe |>.2 |>.symm
    subst hv
    have hmem : q.2 ∈ xs := by
      have hs := List.enum_map_snd xs
      have : q.2 ∈ xs.enum.map Prod.snd := List.mem_map_of_mem Prod.snd hq
      rwa [hs] at this
    have := mem_listSz hmem
    simp only [nodeSz]
    omega
  | str s =>
    simp only [entriesOf, List.mem_map] at h
    obtain ⟨q, hq, hqe⟩ := h
    have hv : v = SchemaNode.str ⟨[q.2]⟩ := (Prod.mk.injEq _ _ _ _).mp hqe |>.2 |>.symm
    subst hv
    simp [nodeSz]
  | null => cases h
  | bool b => cases h
  | num n => cases h

theorem entriesOf_resolveProps_sz {fs : List (String × SchemaNode)} {k : String}
    {v : SchemaNode} (h : (k, v) ∈ entriesOf (resolveProps fs)) :
    nodeSz v < nodeSz (SchemaNode.obj fs) := by
  cases hp : List.lookup "props" fs with
  | none =>
    simp only [resolveProps, hp, entriesOf] at h
    have := mem_fieldsSz h
    simp only [nodeSz]
    omega
  | some p =>
    simp only [resolveProps, hp] at h
    by_cases htr : truthy p = true
    · rw [if_pos htr] at h
      have h1 := entriesOf_value_sz h
      have h2 := lookup_fieldsSz hp
      simp only [nodeSz]
      omega
    · rw [if_neg htr] at h
      simp only [entriesOf] at h
      have := mem_fieldsSz h
      simp only [nodeSz]
      omega

/-- Lexicographic helper discharging the factory's termination goals. -/
theorem prodLex_of_le_of_lt {a c b d : Nat} (h1 : a ≤ c) (h2 : b < d) :
    Prod.Lex (· < ·) (· < ·) (a, b) (c, d) := by
  rcases Nat.lt_or_ge a c with h | h
  · exact Prod.Lex.left _ _ h
  · have he : a = c := by omega
    subst he
    exact Prod.Lex.right _ h2

/-- The `switch (propSchema)` of SchemaFactory.convertStringType: the seven
recognised tags, everything else degrading to the unconstrained type. -/
def convertStringType (propSchema : String) : ZodType :=
  if propSchema == "string" then .string
  else if propSchema == "number" then .number
  else if propSchema == "boolean" then .boolean
  else if propSchema == "date" then .date
  else if propSchema == "email" then .email
  else if propSchema == "url" then .url
  else if propSchema == "uuid" then .uuid
  else .any

mutual

/-- The per-property dispatch inside SchemaFactory.convertToZodSchemaProps:
strings go to convertStringType, arrays to convertArrayType, non-null
objects to convertObjectType, and anything else (null, booleans, numbers)
defaults to z.any(). -/
def convertProp (propSchema : SchemaNode) : ZodType :=
  match propSchema with
  | .str s => convertStringType s
  | .arr xs => convertArrayType xs
  | .obj fs => convertObjectType (.obj fs)
  | _ => .any
termination_by (nodeSz propSchema, 3)
decreasing_by
  · simp only [nodeSz]
    exact Prod.Lex.right _ (by omega)
  · exact Prod.Lex.right _ (by omega)

/-- SchemaFactory.convertArrayType: an empty array schema is an array of
anything; otherwise the first item is converted through a one-field helper
object, exactly as the source routes it through `{ item: propSchema[0] }`. -/
def convertArrayType (propSchema : List SchemaNode) : ZodType :=
  match propSchema with
  | [] => .array .any
  | x :: _ =>
    .array ((List.lookup "item"
      (convertToZodSchemaProps (.obj [("item", x)]))).getD .any)
termination_by (1 + listSz propSchema, 2)
decreasing_by
  · simp only [nodeSz, fieldsSz, listSz]
    exact prodLex_of_le_of_lt (by omega) (by omega)

/-- SchemaFactory.convertObjectType: array-tagged mappings, object-tagged
or props-carrying mappings, primitive-tagged mappings honouring
`optional: true`, and the implicit-object fallback that degrades to
z.any() when no field survives. -/
def convertObjectType (propSchema : SchemaNode) : ZodType :=
  if truthy propSchema && isTypeTag propSchema "array" then
    match hit : getKey "items" propSchema with
    | some items =>
      if truthy items then
        .array ((List.lookup "item"
          (convertToZodSchemaProps (.obj [("item", items)]))).getD .any)
      else .array .any
    | none => .array .any
  else if truthy propSchema && (isTypeTag propSchema "object" || hasKeyB "props" propSchema) then
    .object (convertToZodSchemaProps propSchema)
  else if truthy propSchema && hasKeyB "type" propSchema then
    let zodType := match getKey "type" propSchema with
      | some (.str s) => convertStringType s
      | _ => ZodType.any
    if optionalFlagTrue propSchema then .optional zodType else zodType
  else
    let nestedProps := convertToZodSchemaProps propSchema
    if nestedProps.length = 0 then .any
    else
      let zodType := ZodType.object nestedProps
      if optionalFlagTrue propSchema then .optional zodType else zodType
termination_by (nodeSz propSchema, 2)
decreasing_by
  · cases propSchema with
    | obj fs =>
      simp only [getKey] at hit
      have := lookup_fieldsSz hit
      simp only [nodeSz, fieldsSz]
      exact prodLex_of_le_of_lt (by omega) (by omega)
    | null => simp [getKey] at hit
    | bool b => simp [getKey] at hit
    | num n => simp [getKey] at hit
    | str s => simp [getKey] at hit
    | arr xs => simp [getKey] at hit
  · exact Prod.Lex.right _ (by omega)
  · exact Prod.Lex.right _ (by omega)

/-- SchemaFactory.convertToZodSchemaProps: falsy input yields no fields;
a non-array object contributes the entries of `schema.props || schema`,
skipping the `$$strict` and `$$async` metadata keys, each value going
through the dispatch; every other value contributes nothing. -/
def convertToZodSchemaProps (schema : SchemaNode) : List (String × ZodType) :=
  if ¬ truthy schema = true then []
  else
    match schema with
    | .obj fs =>
      (((entriesOf (resolveProps fs)).filter
          (fun e => !(e.1 == "$$strict") && !(e.1 == "$$async"))).attach).map
        (fun e => (e.1.1, convertProp e.1.2))
    | _ => []
termination_by (nodeSz schema, 1)
decreasing_by
  · have hmem : e.1 ∈ entriesOf (resolveProps fs) := List.mem_of_mem_filter e.2
    have hsz : nodeSz e.1.2 < nodeSz (SchemaNode.obj fs) := by
      have h2 := hmem
      rw [show e.1 = (e.1.1, e.1.2) from rfl] at h2
      exact entriesOf_resolveProps_sz h2
    apply Prod.Lex.left
    exact hsz

end

/-- SchemaFactory.build: the only entry point the catalogue calls; falsy
params become the empty object schema, anything else is wrapped as
z.object of the converted properties. -/
def SchemaFactory.build (params : SchemaNode) : ZodType :=
  if ¬ truthy params = true then .object []
  else .object (convertToZodSchemaProps params)

/-- Attach-free description of the object branch of convertToZodSchemaProps. -/
theorem convertToZodSchemaProps_obj (fs : List (String × SchemaNode)) :
    convertToZodSchemaProps (.obj fs) =
      ((entriesOf (resolveProps fs)).filter
        (fun e => !(e.1 == "$$strict") && !(e.1 == "$$async"))).map
        (fun e => (e.1, convertProp e.2)) := by
  rw [convertToZodSchemaProps.eq_def]
  rw [if_neg (by simp [truthy])]
  exact List.attach_map_val
    ((entriesOf (resolveProps fs)).filter
      (fun e => !(e.1 == "$$strict") && !(e.1 == "$$async")))
    (fun e => (e.1, convertProp e.2))

theorem lookup_cons_beq {β : Type} {k k' : String} {v : β} {t : List (String × β)}
    (h : (k == k') = true) : List.lookup k ((k', v) :: t) = some v := by
  simp [List.lookup, h]

theorem lookup_cons_bne {β : Type} {k k' : String} {v : β} {t : List (String × β)}
    (h : (k == k') = false) : List.lookup k ((k', v) :: t) = List.lookup k t := by
  simp [List.lookup, h]

/-- Looking a key up among the converted properties is converting the value
found under that key (for keys other than the skipped metadata keys). -/
theorem lookup_convertedEntries (l : List (String × SchemaNode)) (k : String)
    (hk1 : ¬ k = "$$strict") (hk2 : ¬ k = "$$async") :
    List.lookup k ((l.filter (fun e => !(e.1 == "$$strict") && !(e.1 == "$$async"))).map
      (fun e => (e.1, convertProp e.2))) = (List.lookup k l).map convertProp := by
  induction l with
  | nil => rfl
  | cons a t ih =>
    obtain ⟨a1, a2⟩ := a
    by_cases ha : (!(a1 == "$$strict") && !(a1 == "$$async")) = true
    · rw [List.filter_cons, if_pos ha, List.map_cons]
      by_cases hka : (k == a1) = true
      · rw [lookup_cons_beq hka]
        rw [show List.lookup k ((a1, a2) :: t) = some a2 from lookup_cons_beq hka]
        rfl
      · have hka' : (k == a1) = false := by
          rw [Bool.not_eq_true] at hka
          exact hka
        rw [lookup_cons_bne hka']
        rw [show List.lookup k ((a1, a2) :: t) = List.lookup k t from lookup_cons_bne hka']
        exact ih
    · rw [List.filter_cons, if_neg ha]
      have ha' : a1 = "$$strict" ∨ a1 = "$$async" := by
        by_contra hc
        push_neg at hc
        apply ha
        have h1 : (a1 == "$$strict") = false := beq_eq_false_iff_ne.mpr hc.1
        have h2 : (a1 == "$$async") = false := beq_eq_false_iff_ne.mpr hc.2
        rw [h1, h2]
        rfl
      have hka : (k == a1) = false := by
        rcases ha' with h | h
        · subst h
          exact beq_eq_false_iff_ne.mpr hk1
        · subst h
          exact beq_eq_false_iff_ne.mpr hk2
      rw [show List.lookup k ((a1, a2) :: t) = List.lookup k t from lookup_cons_bne hka]
      exact ih

/-- Runtime values the factory's dispatch cannot classify: null, booleans,
numbers (the final `else` of the dispatch), and strings outside the seven
recognised tags (the `default` of convertStringType). -/
def notClassifiedLeaf : SchemaNode → Bool
  | .null => true
  | .bool _ => true
  | .num _ => true
  | .str s => !(s == "string" || s == "number" || s == "boolean" || s == "date" ||
      s == "email" || s == "url" || s == "uuid")
  | .arr _ => false
  | .obj _ => false

/-- C7: the schema translation is a total function (it always produces an
object schema, never an error), every leaf it cannot classify maps to the
unconstrained z.any type, and in particular building the schema of
`\x7bfoo: true\x7d` yields an unconstrained type for the field foo instead of
an error. -/
theorem claim_C7_translator_never_fails :
    (∀ n : SchemaNode, ∃ props, SchemaFactory.build n = .object props) ∧
    (∀ n : SchemaNode, notClassifiedLeaf n = true → convertProp n = .any) ∧
    SchemaFactory.build (.obj [("foo", .bool true)]) =
      .object [("foo", ZodType.any)] := by
  refine ⟨?_, ?_, ?_⟩
  · intro n
    by_cases h : truthy n = true
    · refine ⟨convertToZodSchemaProps n, ?_⟩
      rw [SchemaFactory.build, if_neg (by simp [h])]
    · refine ⟨[], ?_⟩
      rw [SchemaFactory.build, if_pos (by simp [h])]
  · intro n hn
    cases n with
    | null => simp [convertProp]
    | bool b => simp [convertProp]
    | num n => simp [convertProp]
    | arr xs => simp [notClassifiedLeaf] at hn
    | obj fs => simp [notClassifiedLeaf] at hn
    | str s =>
      simp only [notClassifiedLeaf, Bool.not_eq_true', Bool.or_eq_false_iff] at hn
      obtain ⟨⟨⟨⟨⟨⟨h1, h2⟩, h3⟩, h4⟩, h5⟩, h6⟩, h7⟩ := hn
      simp [convertProp, convertStringType, h1, h2, h3, h4, h5, h6, h7]
  · rw [SchemaFactory.build, if_neg (by simp [truthy]), convertToZodSchemaProps_obj]
    rw [show resolveProps [("foo", SchemaNode.bool true)] = .obj [("foo", .bool true)]
      from by simp [resolveProps, List.lookup]]
    simp [entriesOf, List.filter, convertProp]

/-- Witness for C7 at the concrete unclassifiable leaf null. -/
theorem claim_C7_translator_never_fails_witness :
    convertProp SchemaNode.null = ZodType.any :=
  claim_C7_translator_never_fails.2.1 SchemaNode.null rfl

/-- C10: in the implicit-object fallback branch of the translator, a
sibling key named "optional" is not removed from the field set: a bare
mapping with no type/props discriminator carrying `optional: true`
alongside other entries translates to an optional-wrapped object schema
whose fields include one literally named "optional" (the boolean leaf,
translated to the unconstrained type) in addition to every real field. -/
theorem claim_C10_optional_sibling_kept (fs : List (String × SchemaNode))
    (htype : List.lookup "type" fs = none)
    (hprops : List.lookup "props" fs = none)
    (hopt : List.lookup "optional" fs = some (.bool true))
    (hother : ∃ e, e ∈ fs ∧ ¬ e.1 = "optional") :
    convertObjectType (.obj fs) =
      .optional (.object (convertToZodSchemaProps (.obj fs))) ∧
    List.lookup "optional" (convertToZodSchemaProps (.obj fs)) = some ZodType.any ∧
    (∀ k, ¬ k = "$$strict" → ¬ k = "$$async" →
      List.lookup k (convertToZodSchemaProps (.obj fs)) =
        (List.lookup k fs).map convertProp) := by
  have hres : resolveProps fs = .obj fs := by simp [resolveProps, hprops]
  have hlookup : ∀ k, ¬ k = "$$strict" → ¬ k = "$$async" →
      List.lookup k (convertToZodSchemaProps (.obj fs)) =
        (List.lookup k fs).map convertProp := by
    intro k hk1 hk2
    rw [convertToZodSchemaProps_obj, hres]
    exact lookup_convertedEntries fs k hk1 hk2
  have hoptconv : List.lookup "optional" (convertToZodSchemaProps (.obj fs)) =
      some ZodType.any := by
    rw [hlookup "optional" (by decide) (by decide), hopt]
    simp [convertProp]
  have hnonempty : ¬ (convertToZodSchemaProps (.obj fs)).length = 0 := by
    intro hlen
    rw [List.length_eq_zero] at hlen
    rw [hlen] at hoptconv
    simp [List.lookup] at hoptconv
  refine ⟨?_, hoptconv, hlookup⟩
  rw [convertObjectType.eq_def]
  rw [if_neg (by simp [isTypeTag, getKey, htype])]
  rw [if_neg (by simp [isTypeTag, getKey, htype, hasKeyB, hprops])]
  rw [if_neg (by simp [hasKeyB, getKey, htype])]
  simp only [if_neg hnonempty]
  rw [if_pos (by simp [optionalFlagTrue, getKey, hopt])]

/-- Witness for C10 at the concrete mapping with fields a and optional. -/
theorem claim_C10_optional_sibling_kept_witness :
    convertObjectType (.obj [("a", SchemaNode.str "string"), ("optional", SchemaNode.bool true)]) =
      .optional (.object (convertToZodSchemaProps
        (.obj [("a", SchemaNode.str "string"), ("optional", SchemaNode.bool true)]))) ∧
    List.lookup "optional" (convertToZodSchemaProps
      (.obj [("a", SchemaNode.str "string"), ("optional", SchemaNode.bool true)])) =
      some ZodType.any :=
  ⟨(claim_C10_optional_sibling_kept
      [("a", SchemaNode.str "string"), ("optional", SchemaNode.bool true)]
      rfl rfl rfl ⟨("a", SchemaNode.str "string"), by simp, by decide⟩).1,
   (claim_C10_optional_sibling_kept
      [("a", SchemaNode.str "string"), ("optional", SchemaNode.bool true)]
      rfl rfl rfl ⟨("a", SchemaNode.str "string"), by simp, by decide⟩).2.1⟩

/-! Service Catalogue embedding. -/

/-- Action snapshot from the broker registry (`ActionInfo`): the dot-
delimited action name and the two places a params schema may live
(`action?.definition?.params` and `action.action?.params`). -/
structure ActionInfo where
  name : String
  definitionParams : Option SchemaNode
  actionParams : Option SchemaNode

/-- One configured custom tool (settings `tools[]`): requested tool name,
target action, description, and the parameter overrides. -/
structure CustomToolSpec where
  name : String
  action : String
  description : String
  params : Option (List (String × SchemaNode))

/-- The options the catalogue reads: allow-patterns and custom tools. -/
structure BridgeOptionsM where
  allow : List String
  tools : List CustomToolSpec

/-- One entry of the built `toolName -> ToolConfig` record, together with
the values its handler closed over (the original action name read from
nameMap and the parameter overrides). -/
structure ToolEntry where
  toolName : String
  originalActionName : String
  description : String
  schema : List (String × ZodType)
  overrides : Option (List (String × SchemaNode))

/-- Mutable state of the catalogue builder: the toolName→actionName map,
the set of used names, and the tool entries in creation order. -/
structure CatState where
  nameMap : List (String × String)
  usedNames : List String
  entries : List ToolEntry

/-- The empty builder state. -/
def initCatState : CatState := { nameMap := [], usedNames := [], entries := [] }

/-- JS property assignment `m[k] = v` on a string record (replace an
existing binding in place, else append). -/
def recordSet (m : List (String × String)) (k v : String) : List (String × String) :=
  if m.any (fun e => e.1 == k) then
    m.map (fun e => if e.1 == k then (k, v) else e)
  else m ++ [(k, v)]

/-- ServiceCatalogue.isActionAllowed: "*" matches everything, a pattern
ending in "*" matches by literal prefix (pattern minus the trailing star),
anything else matches by exact equality. -/
def isActionAllowed (actionName : String) (allowPatterns : List String) : Bool :=
  allowPatterns.any (fun pat =>
    if pat = "*" then true
    else if pat.toList.getLast? = some '*' then
      List.isPrefixOf pat.toList.dropLast actionName.toList
    else actionName = pat)

/-- ServiceCatalogue.filterAllowedActions. -/
def filterAllowedActions (actions : List ActionInfo) (allow : List String) :
    List ActionInfo :=
  actions.filter (fun action => isActionAllowed action.name allow)

/-- JS `action?.definition?.params || action.action?.params || \x7b\x7d` —
first truthy params source, else the empty object. -/
def paramsSchemaOf (action : ActionInfo) : SchemaNode :=
  match action.definitionParams with
  | some p =>
    if truthy p then p
    else match action.actionParams with
      | some q => if truthy q then q else .obj []
      | none => .obj []
  | none =>
    match action.actionParams with
    | some q => if truthy q then q else .obj []
    | none => .obj []

/-- ServiceCatalogue.createToolConfig: build the zod schema for the action,
make overridden parameters optional (every zod schema object passes the
`value && typeof value === "object" && "optional" in value` test, since
`.optional` lives on the zod prototype, so the test reduces to the
`hasOwnProperty` check on the overrides), read the original action name
back from nameMap (an absent binding is modelled as the empty string —
both are falsy where the handler tests them), and append the tool entry. -/
def createToolConfig (st : CatState) (toolName : String) (action : ActionInfo)
    (description : String) (paramOverrides : Option (List (String × SchemaNode))) :
    CatState :=
  let zodSchema := SchemaFactory.build (paramsSchemaOf action)
  let shape := match zodSchema with
    | .object props => props
    | _ => []
  let finalShape := match paramOverrides with
    | some o => shape.map (fun e =>
        if (List.lookup e.1 o).isSome then (e.1, ZodType.optional e.2) else e)
    | none => shape
  let originalActionName := (List.lookup toolName st.nameMap).getD ""
  { st with entries := st.entries ++
      [{ toolName := toolName, originalActionName := originalActionName,
         description := description, schema := finalShape,
         overrides := paramOverrides }] }

/-- ServiceCatalogue.processCustomTools: for each configured custom tool,
look its action up among the allowed actions (skip with a warning when
absent), sanitize the requested name with stripForbidden, make it unique,
record the name mapping, and create the tool entry. -/
def processCustomTools (tools : List CustomToolSpec) (allowedActions : List ActionInfo)
    (st : CatState) : Except String CatState :=
  match tools with
  | [] => .ok st
  | customTool :: rest =>
    match allowedActions.find? (fun a => a.name == customTool.action) with
    | none => processCustomTools rest allowedActions st
    | some action =>
      let safeName := NameSanitizer.stripForbidden customTool.name
      match NameSanitizer.ensureUnique safeName st.usedNames with
      | .error e => .error e
      | .ok finalName =>
        let st1 := { st with nameMap := recordSet st.nameMap finalName customTool.action,
                             usedNames := st.usedNames ++ [finalName] }
        processCustomTools rest allowedActions
          (createToolConfig st1 finalName action customTool.description customTool.params)

/-- JS String.prototype.split with a one-character separator. -/
def splitOnChar (sep : Char) : List Char → List (List Char)
  | [] => [[]]
  | c :: rest =>
    if c = sep then [] :: splitOnChar sep rest
    else match splitOnChar sep rest with
      | h :: t => (c :: h) :: t
      | [] => [[c]]

/-- JS `method.charAt(0).toUpperCase() + method.slice(1)` (ASCII simple
upper-casing, which covers every character the catalogue's callers use). -/
def capitalizeList : List Char → List Char
  | [] => []
  | c :: r => c.toUpper :: r

/-- ServiceCatalogue.generateToolDescription.  Under the first branch's
guard the `.replace("$node.", "")` of the source removes the leading
occurrence, i.e. the six-character prefix. -/
def generateToolDescription (actionName : String) : String :=
  if List.isPrefixOf ("$node.".toList) actionName.toList then
    "Get " ++ (⟨actionName.toList.drop 6⟩ : String) ++
      " information from the Moleculer node"
  else if actionName.toList.contains '.' then
    let parts := splitOnChar '.' actionName.toList
    let service := parts.headD []
    let method := parts.getLastD []
    if ¬ method = [] then
      (⟨capitalizeList method⟩ : String) ++ " operation for the " ++
        (⟨service⟩ : String) ++ " service"
    else "Execute the " ++ actionName ++ " action"
  else "Execute the " ++ actionName ++ " action"

/-- ServiceCatalogue.processRemainingActions: every allowed action not
already claimed by a custom tool (membership tested by original action
name) gets a sanitized unique tool name, a synthesized description, and a
tool entry with no overrides. -/
def processRemainingActions (tools : List CustomToolSpec)
    (allowedActions : List ActionInfo) (st : CatState) : Except String CatState :=
  match allowedActions with
  | [] => .ok st
  | action :: rest =>
    if tools.any (fun tool => tool.action == action.name) then
      processRemainingActions tools rest st
    else
      match NameSanitizer.sanitizeActionName action.name with
      | .error e => .error e
      | .ok safeName =>
        match NameSanitizer.ensureUnique safeName st.usedNames with
        | .error e => .error e
        | .ok finalName =>
          let st1 := { st with nameMap := recordSet st.nameMap finalName action.name,
                               usedNames := st.usedNames ++ [finalName] }
          processRemainingActions tools rest
            (createToolConfig st1 finalName action
              (generateToolDescription action.name) none)

/-- ServiceCatalogue.buildCatalogue: filter the discovered actions by the
allow-patterns, process the custom tools first, then the remaining
actions. -/
def buildCatalogue (actions : List ActionInfo) (options : BridgeOptionsM) :
    Except String CatState :=
  let allowedActions := filterAllowedActions actions options.allow
  match processCustomTools options.tools allowedActions initCatState with
  | .error e => .error e
  | .ok st1 => processRemainingActions options.tools allowedActions st1

/-- Comma-join used by the serializer model. -/
def joinComma : List String → String
  | [] => ""
  | [s] => s
  | s :: rest => s ++ "," ++ joinComma rest

/-- Modelled builtin: JS `JSON.stringify` on the modelled values (string
escaping elided — the bridge only forwards the serialized text, so every
claim is insensitive to the exact rendering). -/
def jsonStringify : SchemaNode → String
  | .null => "null"
  | .bool b => if b then "true" else "false"
  | .num n => toString n
  | .str s => "\"" ++ s ++ "\""
  | .arr xs => "[" ++ joinComma (xs.attach.map (fun e => jsonStringify e.1)) ++ "]"
  | .obj fs => "\x7b" ++ joinComma (fs.attach.map
      (fun e => "\"" ++ e.1.1 ++ "\":" ++ jsonStringify e.1.2)) ++ "\x7d"
termination_by n => nodeSz n
decreasing_by
  · have h := mem_listSz e.2
    simp only [nodeSz]
    omega
  · have h2 := e.2
    rw [show e.1 = (e.1.1, e.1.2) from rfl] at h2
    have h3 := mem_fieldsSz h2
    simp only [nodeSz]
    omega

/-- JS `\x7b...args\x7d` then `Object.assign(finalArgs, overrides)`: keys of
`a` keep their position (overridden values win), new override keys are
appended in override order. -/
def objAssign (a o : List (String × SchemaNode)) : List (String × SchemaNode) :=
  a.map (fun e => (e.1, (List.lookup e.1 o).getD e.2)) ++
  o.filter (fun e => (List.lookup e.1 a).isNone)

/-- One text content item of an MCP tool response. -/
structure ContentItem where
  type : String
  text : String

/-- The success value a tool handler resolves with. -/
structure ToolResponse where
  content : List ContentItem

/-- The handler closure built by createToolConfig, with the outbound
`broker.call` modelled as an oracle from action name and arguments to a
result or a thrown error.  The first component of the result is the trace
of broker calls the dispatch made; the second is the handler's outcome.
An absent name mapping (modelled as the empty string, the falsy value) is
reported as an error before any call. -/
def toolHandler (toolName originalActionName : String)
    (paramOverrides : Option (List (String × SchemaNode)))
    (call : String → List (String × SchemaNode) → Except String SchemaNode)
    (args : List (String × SchemaNode)) :
    List (String × List (String × SchemaNode)) × Except String ToolResponse :=
  let finalArgs := match paramOverrides with
    | some o => objAssign args o
    | none => args
  if originalActionName = "" then
    ([], .error ("No action mapping found for tool '" ++ toolName ++ "'"))
  else
    match call originalActionName finalArgs with
    | .ok result =>
      ([(originalActionName, finalArgs)],
        .ok { content := [{ type := "text", text := jsonStringify result }] })
    | .error e => ([(originalActionName, finalArgs)], .error e)

theorem lookup_append_assoc {β : Type} (l1 l2 : List (String × β)) (k : String) :
    List.lookup k (l1 ++ l2) =
      match List.lookup k l1 with
      | some v => some v
      | none => List.lookup k l2 := by
  induction l1 with
  | nil => simp [List.lookup]
  | cons a t ih =>
    obtain ⟨a1, a2⟩ := a
    by_cases hk : (k == a1) = true
    · rw [List.cons_append, lookup_cons_beq hk, lookup_cons_beq hk]
    · have hkb : (k == a1) = false := by
        rw [Bool.not_eq_true] at hk
        exact hk
      rw [List.cons_append, lookup_cons_bne hkb, lookup_cons_bne hkb, ih]

theorem lookup_mapOverride (args o : List (String × SchemaNode)) (k : String) :
    List.lookup k (args.map (fun e => (e.1, (List.lookup e.1 o).getD e.2))) =
      match List.lookup k args with
      | some v =>
        match List.lookup k o with
        | some w => some w
        | none => some v
      | none => none := by
  induction args with
  | nil => rfl
  | cons a t ih =>
    obtain ⟨a1, a2⟩ := a
    simp only [List.map_cons]
    by_cases hk : k = a1
    · subst hk
      have hkb : (k == k) = true := by simp
      rw [lookup_cons_beq hkb, lookup_cons_beq hkb]
      cases ho : List.lookup k o <;> rfl
    · have hkb : (k == a1) = false := beq_eq_false_iff_ne.mpr hk
      rw [lookup_cons_bne hkb, lookup_cons_bne hkb, ih]

theorem lookup_filterAbsent (o args : List (String × SchemaNode)) (k : String) :
    List.lookup k (o.filter (fun e => (List.lookup e.1 args).isNone)) =
      match List.lookup k args with
      | some _ => none
      | none => List.lookup k o := by
  induction o with
  | nil =>
    cases ho : List.lookup k args <;> simp [List.lookup]
  | cons a t ih =>
    obtain ⟨a1, a2⟩ := a
    simp only [List.filter_cons]
    by_cases hfa : (List.lookup a1 args).isNone = true
    · rw [if_pos hfa]
      by_cases hk : k = a1
      · subst hk
        have hkb : (k == k) = true := by simp
        rw [lookup_cons_beq hkb, lookup_cons_beq hkb,
          Option.isNone_iff_eq_none.mp hfa]
      · have hkb : (k == a1) = false := beq_eq_false_iff_ne.mpr hk
        rw [lookup_cons_bne hkb, lookup_cons_bne hkb, ih]
    · rw [if_neg hfa, ih]
      cases ho : List.lookup k args with
      | some v => rfl
      | none =>
        have hk : ¬ k = a1 := by
          intro he
          subst he
          rw [ho] at hfa
          simp at hfa
        rw [lookup_cons_bne (beq_eq_false_iff_ne.mpr hk)]

theorem lookup_objAssign (args o : List (String × SchemaNode)) (k : String) :
    List.lookup k (objAssign args o) =
      match List.lookup k o with
      | some v => some v
      | none => List.lookup k args := by
  rw [objAssign, lookup_append_assoc, lookup_mapOverride, lookup_filterAbsent]
  cases ha : List.lookup k args with
  | some v => cases ho : List.lookup k o with
    | some w => rfl
    | none => rfl
  | none => cases ho : List.lookup k o with
    | some w => rfl
    | none => rfl

/-- C2: for every tool entry with an override mapping and every caller
argument object, dispatch makes exactly one outbound broker call, using
the original (unsanitized) action name and the shallow merge of the
caller's arguments with the overrides applied on top (an override value
wins for every key present in both), and on success it resolves to a
single text content item holding the serialized result.  The original
action name recorded for a built entry is nonempty, which the hypothesis
captures. -/
theorem claim_C2_dispatch_merges_and_wraps
    (toolName name : String) (o args : List (String × SchemaNode))
    (call : String → List (String × SchemaNode) → Except String SchemaNode)
    (hname : ¬ name = "") :
    (toolHandler toolName name (some o) call args).1 = [(name, objAssign args o)] ∧
    (∀ k, List.lookup k (objAssign args o) =
      match List.lookup k o with
      | some v => some v
      | none => List.lookup k args) ∧
    (∀ r, call name (objAssign args o) = .ok r →
      (toolHandler toolName name (some o) call args).2 =
        .ok { content := [{ type := "text", text := jsonStringify r }] }) := by
  refine ⟨?_, fun k => lookup_objAssign args o k, ?_⟩
  · rw [toolHandler]
    rw [if_neg hname]
    cases hc : call name (objAssign args o) <;> rfl
  · intro r hr
    rw [toolHandler]
    rw [if_neg hname]
    rw [hr]

/-- Witness for C2 at the spec's offset/limit example. -/
theorem claim_C2_dispatch_merges_and_wraps_witness :
    (toolHandler "users_list" "users.list" (some [("limit", SchemaNode.num 10)])
      (fun _ _ => Except.ok (SchemaNode.num 1)) [("offset", SchemaNode.num 20)]).1 =
      [("users.list", [("offset", SchemaNode.num 20), ("limit", SchemaNode.num 10)])] ∧
    (toolHandler "users_list" "users.list" (some [("limit", SchemaNode.num 10)])
      (fun _ _ => Except.ok (SchemaNode.num 1)) [("offset", SchemaNode.num 20)]).2 =
      .ok { content := [{ type := "text", text := jsonStringify (SchemaNode.num 1) }] } :=
  ⟨(claim_C2_dispatch_merges_and_wraps "users_list" "users.list"
      [("limit", SchemaNode.num 10)] [("offset", SchemaNode.num 20)]
      (fun _ _ => Except.ok (SchemaNode.num 1)) (by decide)).1,
   (claim_C2_dispatch_merges_and_wraps "users_list" "users.list"
      [("limit", SchemaNode.num 10)] [("offset", SchemaNode.num 20)]
      (fun _ _ => Except.ok (SchemaNode.num 1)) (by decide)).2.2
      (SchemaNode.num 1) rfl⟩

/-- The allow-pattern semantics exactly as the specification words them:
"*" matches every name; a pattern ending in "*" matches exactly the names
that start with the pattern's text minus the trailing "*"; any other
pattern matches only a name equal to it. -/
def patternMatchesSpec (pat name : String) : Prop :=
  pat = "*" ∨
  (¬ pat = "*" ∧ pat.toList.getLast? = some '*' ∧
    List.isPrefixOf pat.toList.dropLast name.toList = true) ∨
  (¬ pat = "*" ∧ ¬ pat.toList.getLast? = some '*' ∧ name = pat)

/-- C4: an action is retained by the filter exactly when some allow-pattern
matches it under the specified semantics, and an action matched by no
pattern is merely absent from the filtered list (no error); on the spec's
example only the two users actions survive. -/
theorem claim_C4_allow_filter_semantics :
    (∀ (name : String) (patterns : List String),
      isActionAllowed name patterns = true ↔
        ∃ p ∈ patterns, patternMatchesSpec p name) ∧
    (∀ (actions : List ActionInfo) (allow : List String) (a : ActionInfo),
      a ∈ filterAllowedActions actions allow ↔
        a ∈ actions ∧ isActionAllowed a.name allow = true) ∧
    (filterAllowedActions
      [⟨"users.list", none, none⟩, ⟨"users.get", none, none⟩,
       ⟨"posts.create", none, none⟩] ["users.*"]).map (fun a => a.name) =
      ["users.list", "users.get"] := by
  refine ⟨?_, ?_, ?_⟩
  · intro name patterns
    rw [isActionAllowed, List.any_eq_true]
    constructor
    · rintro ⟨p, hp, hm⟩
      refine ⟨p, hp, ?_⟩
      by_cases h1 : p = "*"
      · exact Or.inl h1
      · rw [if_neg h1] at hm
        by_cases h2 : p.toList.getLast? = some '*'
        · rw [if_pos h2] at hm
          exact Or.inr (Or.inl ⟨h1, h2, hm⟩)
        · rw [if_neg h2] at hm
          exact Or.inr (Or.inr ⟨h1, h2, of_decide_eq_true hm⟩)
    · rintro ⟨p, hp, hm⟩
      refine ⟨p, hp, ?_⟩
      rcases hm with h1 | ⟨h1, h2, h3⟩ | ⟨h1, h2, h3⟩
      · rw [if_pos h1]
      · rw [if_neg h1, if_pos h2]
        exact h3
      · rw [if_neg h1, if_neg h2]
        exact decide_eq_true h3
  · intro actions allow a
    rw [filterAllowedActions, List.mem_filter]
  · rfl

/-- Witness for C4 at the concrete pattern "users.*". -/
theorem claim_C4_allow_filter_semantics_witness :
    isActionAllowed "users.list" ["users.*"] = true ↔
      ∃ p ∈ ["users.*"], patternMatchesSpec p "users.list" :=
  claim_C4_allow_filter_semantics.1 "users.list" ["users.*"]

/-- C8 counterexample: the description strings the code synthesizes
disagree with the ones the claim quotes — the sentinel branch reads "from
the Moleculer node" (no trailing period), the service branch carries no
trailing period either, and a name whose last dot-segment is empty falls
through to the generic fallback instead of the service template. -/
theorem claim_C8_counterexample :
    generateToolDescription "$node.health" =
      "Get health information from the Moleculer node" ∧
    ¬ generateToolDescription "$node.health" =
      "Get health information from the node." ∧
    generateToolDescription "users.list" = "List operation for the users service" ∧
    ¬ generateToolDescription "users.list" =
      "List operation for the users service." ∧
    generateToolDescription "a." = "Execute the a. action" ∧
    ¬ generateToolDescription "a." = " operation for the a service." := by
  refine ⟨rfl, by decide, rfl, by decide, rfl, by decide⟩

/-- C8 amended: the synthesized description follows exactly three cases —
a name starting with "$node." yields "Get {remainder} information from the
Moleculer node"; otherwise a name containing a dot whose last dot-segment
is non-empty yields "{Capitalized method} operation for the {service}
service"; every other name yields "Execute the {name} action" (no trailing
periods). -/
theorem claim_C8_amended_descriptions :
    (∀ name : String, List.isPrefixOf ("$node.".toList) name.toList = true →
      generateToolDescription name =
        "Get " ++ (⟨name.toList.drop 6⟩ : String) ++
          " information from the Moleculer node") ∧
    (∀ name : String, ¬ List.isPrefixOf ("$node.".toList) name.toList = true →
      name.toList.contains '.' = true →
      ¬ (splitOnChar '.' name.toList).getLastD [] = [] →
      generateToolDescription name =
        (⟨capitalizeList ((splitOnChar '.' name.toList).getLastD [])⟩ : String) ++
          " operation for the " ++
          (⟨(splitOnChar '.' name.toList).headD []⟩ : String) ++ " service") ∧
    (∀ name : String, ¬ List.isPrefixOf ("$node.".toList) name.toList = true →
      (¬ name.toList.contains '.' = true ∨
        (splitOnChar '.' name.toList).getLastD [] = []) →
      generateToolDescription name = "Execute the " ++ name ++ " action") := by
  refine ⟨?_, ?_, ?_⟩
  · intro name h
    rw [generateToolDescription, if_pos h]
  · intro name h1 h2 h3
    rw [generateToolDescription, if_neg h1, if_pos h2, if_pos h3]
  · intro name h1 h2
    rcases h2 with h2 | h2
    · rw [generateToolDescription, if_neg h1, if_neg h2]
    · rw [generateToolDescription, if_neg h1]
      by_cases hc : name.toList.contains '.' = true
      · rw [if_pos hc, if_neg (not_not_intro h2)]
      · rw [if_neg hc]

/-- Witness for the amended C8 at the three concrete names. -/
theorem claim_C8_amended_descriptions_witness :
    generateToolDescription "$node.health" =
      "Get " ++ (⟨("$node.health" : String).toList.drop 6⟩ : String) ++
        " information from the Moleculer node" ∧
    generateToolDescription "posts.create" =
      (⟨capitalizeList ((splitOnChar '.' ("posts.create" : String).toList).getLastD [])⟩ :
        String) ++ " operation for the " ++
        (⟨(splitOnChar '.' ("posts.create" : String).toList).headD []⟩ : String) ++
        " service" ∧
    generateToolDescription "health" = "Execute the " ++ "health" ++ " action" :=
  ⟨claim_C8_amended_descriptions.1 "$node.health" (by decide),
   claim_C8_amended_descriptions.2.1 "posts.create" (by decide) (by decide) (by decide),
   claim_C8_amended_descriptions.2.2 "health" (by decide) (Or.inl (by decide))⟩

theorem ensureUniqueLoop_ok_spec (base : String) (used : List String) :
    ∀ n counter candidate r, 1001 - counter = n →
      NameSanitizer.ensureUniqueLoop base used candidate counter = .ok r →
      ¬ r ∈ used ∧ (r = candidate ∨ ∃ j, counter ≤ j ∧ j ≤ 999 ∧
        r = base ++ "_" ++ Nat.repr j) := by
  intro n
  induction n with
  | zero =>
    intro counter candidate r hn hok
    by_cases hc : candidate ∈ used
    · rw [ensureUniqueLoop_mem_overflow hc (by omega)] at hok
      cases hok
    · rw [ensureUniqueLoop_not_mem hc] at hok
      obtain rfl := Except.ok.inj hok
      exact ⟨hc, Or.inl rfl⟩
  | succ n ih =>
    intro counter candidate r hn hok
    by_cases hc : candidate ∈ used
    · by_cases hcnt : counter + 1 > 1000
      · rw [ensureUniqueLoop_mem_overflow hc hcnt] at hok
        cases hok
      · rw [ensureUniqueLoop_mem_step hc (by omega)] at hok
        obtain ⟨hr1, hr2⟩ := ih (counter + 1) _ r (by omega) hok
        refine ⟨hr1, ?_⟩
        rcases hr2 with rfl | ⟨j, hj1, hj2, hj3⟩
        · exact Or.inr ⟨counter, le_refl _, by omega, rfl⟩
        · exact Or.inr ⟨j, by omega, hj2, hj3⟩
    · rw [ensureUniqueLoop_not_mem hc] at hok
      obtain rfl := Except.ok.inj hok
      exact ⟨hc, Or.inl rfl⟩

theorem ensureUnique_ok_spec {base : String} {used : List String} {r : String}
    (h : NameSanitizer.ensureUnique base used = .ok r) :
    ¬ r ∈ used ∧ (r = base ∨ ∃ j, 1 ≤ j ∧ j ≤ 999 ∧
      r = base ++ "_" ++ Nat.repr j) :=
  ensureUniqueLoop_ok_spec base used 1000 1 base r rfl h

set_option maxRecDepth 20000 in
theorem reprDigitsBound : ∀ j, j < 1000 →
    (Nat.repr j).length ≤ 3 ∧ (Nat.repr j).toList.all legalChar = true := by decide

/-- Shape every generated tool name provably has: nonempty, at most 68
characters (64 for the sanitized base plus an underscore and at most three
digits of a collision suffix), all characters legal. -/
def goodToolName (s : String) : Prop :=
  1 ≤ s.length ∧ s.length ≤ 68 ∧ s.toList.all legalChar = true

theorem ensureUnique_good {base : String} {used : List String} {r : String}
    (hb1 : 1 ≤ base.length) (hb2 : base.length ≤ 64)
    (hb3 : base.toList.all legalChar = true)
    (h : NameSanitizer.ensureUnique base used = .ok r) :
    goodToolName r ∧ ¬ r ∈ used := by
  obtain ⟨hnm, hshape⟩ := ensureUnique_ok_spec h
  refine ⟨?_, hnm⟩
  rcases hshape with rfl | ⟨j, hj1, hj9, rfl⟩
  · exact ⟨hb1, by omega, hb3⟩
  · obtain ⟨hd1, hd2⟩ := reprDigitsBound j (by omega)
    have hu : ("_" : String).length = 1 := rfl
    refine ⟨?_, ?_, ?_⟩
    · rw [String.length_append, String.length_append]
      omega
    · rw [String.length_append, String.length_append]
      omega
    · have hto : (base ++ "_" ++ Nat.repr j).toList =
          base.toList ++ ("_" : String).toList ++ (Nat.repr j).toList := by
        simp [String.toList, String.data_append]
      rw [hto]
      simp only [List.all_append, Bool.and_eq_true]
      exact ⟨⟨hb3, by decide⟩, hd2⟩

theorem stripForbidden_base_good (s : String) :
    1 ≤ (NameSanitizer.stripForbidden s).length ∧
    (NameSanitizer.stripForbidden s).length ≤ 64 ∧
    (NameSanitizer.stripForbidden s).toList.all legalChar = true := by
  have hlen := stripForbiddenList_length s.toList
  exact ⟨hlen.1, hlen.2, stripForbiddenList_all_legal s.toList⟩

theorem sanitizeActionName_ok {n r : String}
    (h : NameSanitizer.sanitizeActionName n = .ok r) :
    r = NameSanitizer.stripForbidden (NameSanitizer.toSnake n) := by
  rw [NameSanitizer.sanitizeActionName] at h
  split at h
  · exact (Except.ok.inj h).symm
  · cases h

theorem lookup_some_any {m : List (String × String)} {k : String} {w : String}
    (hl : List.lookup k m = some w) : m.any (fun e => e.1 == k) = true := by
  induction m with
  | nil => cases hl
  | cons a t ih =>
    obtain ⟨a1, a2⟩ := a
    by_cases hk : (k == a1) = true
    · simp only [List.any_cons, Bool.or_eq_true]
      left
      have ha : a1 = k := (eq_of_beq hk).symm
      simp [ha]
    · have hkb : (k == a1) = false := by
        rw [Bool.not_eq_true] at hk
        exact hk
      rw [lookup_cons_bne hkb] at hl
      simp only [List.any_cons, Bool.or_eq_true]
      exact Or.inr (ih hl)

theorem recordSet_lookup_self (m : List (String × String)) (k v : String) :
    List.lookup k (recordSet m k v) = some v := by
  rw [recordSet]
  by_cases hany : m.any (fun e => e.1 == k) = true
  · rw [if_pos hany]
    induction m with
    | nil => simp at hany
    | cons a t ih =>
      obtain ⟨a1, a2⟩ := a
      simp only [List.map_cons]
      by_cases hak : (a1 == k) = true
      · have : ((a1, a2).1 == k) = true := hak
        simp only [this, if_pos]
        have hka : (k == k) = true := by simp
        rw [lookup_cons_beq hka]
      · have hne : ((a1, a2).1 == k) = false := by
          rw [Bool.not_eq_true] at hak
          exact hak
        simp only [hne, Bool.false_eq_true, if_false]
        have hkb : (k == a1) = false := by
          have h1 : ¬ a1 = k := by
            intro he
            rw [he] at hne
            simp at hne
          exact beq_eq_false_iff_ne.mpr (fun he => h1 he.symm)
        rw [lookup_cons_bne hkb]
        apply ih
        simp only [List.any_cons, Bool.or_eq_true] at hany
        rcases hany with h | h
        · rw [Bool.not_eq_true] at hak
          rw [h] at hak
          cases hak
        · exact h
  · rw [if_neg hany]
    rw [lookup_append_assoc]
    have hnone : List.lookup k m = none := by
      cases hl : List.lookup k m with
      | none => rfl
      | some w => exact absurd (lookup_some_any hl) hany
    rw [hnone]
    have hkk : (k == k) = true := by simp
    rw [lookup_cons_beq hkk]

/-- Builder invariant: every created tool name is well-shaped, registered
among the used names, and the list of tool names has no duplicate. -/
def catInv (st : CatState) : Prop :=
  (∀ e ∈ st.entries, goodToolName e.toolName) ∧
  (∀ e ∈ st.entries, e.toolName ∈ st.usedNames) ∧
  (st.entries.map (fun e => e.toolName)).Nodup

theorem catInv_init : catInv initCatState := by
  refine ⟨?_, ?_, ?_⟩ <;> simp [initCatState]

theorem nodup_append_singleton {α : Type} {l : List α} {a : α}
    (h1 : l.Nodup) (h2 : ¬ a ∈ l) : (l ++ [a]).Nodup := by
  rw [List.nodup_append]
  refine ⟨h1, List.nodup_singleton a, ?_⟩
  intro x hx hxa
  rw [List.mem_singleton] at hxa
  subst hxa
  exact h2 hx

theorem createToolConfig_shape (st : CatState) (toolName : String)
    (action : ActionInfo) (description : String)
    (overrides : Option (List (String × SchemaNode))) :
    ∃ entry,
      (createToolConfig st toolName action description overrides).entries =
        st.entries ++ [entry] ∧
      entry.toolName = toolName ∧
      entry.originalActionName = (List.lookup toolName st.nameMap).getD "" ∧
      (createToolConfig st toolName action description overrides).usedNames =
        st.usedNames ∧
      (createToolConfig st toolName action description overrides).nameMap =
        st.nameMap := by
  refine ⟨_, rfl, rfl, rfl, rfl, rfl⟩

theorem catInv_step {st : CatState} (hInv : catInv st) (finalName : String)
    (action : ActionInfo) (description : String)
    (overrides : Option (List (String × SchemaNode))) (targetAction : String)
    (hg : goodToolName finalName) (hnew : ¬ finalName ∈ st.usedNames) :
    catInv (createToolConfig
      { st with nameMap := recordSet st.nameMap finalName targetAction,
                usedNames := st.usedNames ++ [finalName] }
      finalName action description overrides) := by
  obtain ⟨hgood, hused, hnodup⟩ := hInv
  obtain ⟨entry, hent, hname, horig, hub, hnb⟩ :=
    createToolConfig_shape
      { st with nameMap := recordSet st.nameMap finalName targetAction,
                usedNames := st.usedNames ++ [finalName] }
      finalName action description overrides
  refine ⟨?_, ?_, ?_⟩
  · intro e he
    rw [hent] at he
    rcases List.mem_append.mp he with he | he
    · exact hgood e he
    · rw [List.mem_singleton] at he
      subst he
      rw [hname]
      exact hg
  · intro e he
    rw [hent] at he
    rw [hub]
    rcases List.mem_append.mp he with he | he
    · exact List.mem_append_left _ (hused e he)
    · rw [List.mem_singleton] at he
      subst he
      rw [hname]
      exact List.mem_append_right _ (List.mem_singleton_self _)
  · rw [hent, List.map_append]
    simp only [List.map_cons, List.map_nil, hname]
    apply nodup_append_singleton hnodup
    intro hmem
    rw [List.mem_map] at hmem
    obtain ⟨e, he, hee⟩ := hmem
    apply hnew
    rw [← hee]
    exact hused e he

theorem processCustomTools_inv : ∀ (tools : List CustomToolSpec)
    (allowed : List ActionInfo) (st stF : CatState),
    catInv st → processCustomTools tools allowed st = .ok stF → catInv stF := by
  intro tools
  induction tools with
  | nil =>
    intro allowed st stF hInv h
    rw [processCustomTools] at h
    obtain rfl := Except.ok.inj h
    exact hInv
  | cons customTool rest ih =>
    intro allowed st stF hInv h
    rw [processCustomTools] at h
    cases hfind : allowed.find? (fun a => a.name == customTool.action) with
    | none =>
      simp only [hfind] at h
      exact ih allowed st stF hInv h
    | some action =>
      simp only [hfind] at h
      cases hok : NameSanitizer.ensureUnique
          (NameSanitizer.stripForbidden customTool.name) st.usedNames with
      | error e =>
        simp only [hok] at h
        cases h
      | ok finalName =>
        simp only [hok] at h
        obtain ⟨hb1, hb2, hb3⟩ := stripForbidden_base_good customTool.name
        obtain ⟨hg, hnm⟩ := ensureUnique_good hb1 hb2 hb3 hok
        exact ih allowed _ stF
          (catInv_step hInv finalName action customTool.description customTool.params
            customTool.action hg hnm) h

theorem processRemainingActions_inv : ∀ (tools : List CustomToolSpec)
    (allowed : List ActionInfo) (st stF : CatState),
    catInv st → processRemainingActions tools allowed st = .ok stF → catInv stF := by
  intro tools allowed
  induction allowed with
  | nil =>
    intro st stF hInv h
    rw [processRemainingActions] at h
    obtain rfl := Except.ok.inj h
    exact hInv
  | cons action rest ih =>
    intro st stF hInv h
    rw [processRemainingActions] at h
    by_cases hskip : (tools.any fun tool => tool.action == action.name) = true
    · rw [if_pos hskip] at h
      exact ih st stF hInv h
    · rw [if_neg hskip] at h
      cases hsan : NameSanitizer.sanitizeActionName action.name with
      | error e =>
        simp only [hsan] at h
        cases h
      | ok safeName =>
        simp only [hsan] at h
        cases hok : NameSanitizer.ensureUnique safeName st.usedNames with
        | error e =>
          simp only [hok] at h
          cases h
        | ok finalName =>
          simp only [hok] at h
          have hsafe := sanitizeActionName_ok hsan
          subst hsafe
          obtain ⟨hb1, hb2, hb3⟩ :=
            stripForbidden_base_good (NameSanitizer.toSnake action.name)
          obtain ⟨hg, hnm⟩ := ensureUnique_good hb1 hb2 hb3 hok
          exact ih _ stF
            (catInv_step hInv finalName action (generateToolDescription action.name)
              none action.name hg hnm) h

theorem processRemainingActions_entries : ∀ (tools : List CustomToolSpec)
    (allowed : List ActionInfo) (st stF : CatState),
    processRemainingActions tools allowed st = .ok stF →
    ∃ auto, stF.entries = st.entries ++ auto ∧
      ∀ e ∈ auto, ∀ t ∈ tools, ¬ t.action = e.originalActionName := by
  intro tools allowed
  induction allowed with
  | nil =>
    intro st stF h
    rw [processRemainingActions] at h
    obtain rfl := Except.ok.inj h
    exact ⟨[], by simp, by simp⟩
  | cons action rest ih =>
    intro st stF h
    rw [processRemainingActions] at h
    by_cases hskip : (tools.any fun tool => tool.action == action.name) = true
    · rw [if_pos hskip] at h
      exact ih st stF h
    · rw [if_neg hskip] at h
      cases hsan : NameSanitizer.sanitizeActionName action.name with
      | error e =>
        simp only [hsan] at h
        cases h
      | ok safeName =>
        simp only [hsan] at h
        cases hok : NameSanitizer.ensureUnique safeName st.usedNames with
        | error e =>
          simp only [hok] at h
          cases h
        | ok finalName =>
          simp only [hok] at h
          obtain ⟨auto', h1, h2⟩ := ih _ stF h
          obtain ⟨entry, hent, hname, horig, -, -⟩ :=
            createToolConfig_shape
              { st with nameMap := recordSet st.nameMap finalName action.name,
                        usedNames := st.usedNames ++ [finalName] }
              finalName action (generateToolDescription action.name) none
          simp only at horig
          rw [recordSet_lookup_self, Option.getD_some] at horig
          refine ⟨entry :: auto', ?_, ?_⟩
          · rw [h1, hent]
            simp
          · intro e he t ht
            rcases List.mem_cons.mp he with rfl | he
            · rw [horig]
              intro hta
              exact hskip (List.any_eq_true.mpr ⟨t, ht, by simp [hta]⟩)
            · exact h2 e he t ht

/-- C3: the custom tools pass runs before the remaining-actions pass, and
the remaining-actions pass skips (by original action name) every action
some custom tool spec targets, so the built catalogue is the custom-pass
entries followed by auto-generated entries none of which belongs to an
action any custom tool targets: the custom tool always wins. -/
theorem claim_C3_custom_tool_wins :
    ∀ (actions : List ActionInfo) (options : BridgeOptionsM) (stF : CatState),
      buildCatalogue actions options = .ok stF →
      ∃ stC auto,
        processCustomTools options.tools (filterAllowedActions actions options.allow)
          initCatState = .ok stC ∧
        stF.entries = stC.entries ++ auto ∧
        ∀ e ∈ auto, ∀ t ∈ options.tools, ¬ t.action = e.originalActionName := by
  intro actions options stF h
  simp only [buildCatalogue] at h
  cases hC : processCustomTools options.tools (filterAllowedActions actions options.allow)
      initCatState with
  | error e =>
    simp only [hC] at h
    cases h
  | ok stC =>
    simp only [hC] at h
    obtain ⟨auto, h1, h2⟩ := processRemainingActions_entries options.tools _ stC stF h
    exact ⟨stC, auto, rfl, h1, h2⟩

/-- Witness for C3 at the empty catalogue build. -/
theorem claim_C3_custom_tool_wins_witness :
    ∃ stC auto,
      processCustomTools (BridgeOptionsM.mk [] []).tools
        (filterAllowedActions [] (BridgeOptionsM.mk [] []).allow) initCatState =
        .ok stC ∧
      initCatState.entries = stC.entries ++ auto ∧
      ∀ e ∈ auto, ∀ t ∈ (BridgeOptionsM.mk [] []).tools,
        ¬ t.action = e.originalActionName :=
  claim_C3_custom_tool_wins [] (BridgeOptionsM.mk [] []) initCatState rfl

/-- C1 amended, part of the proof development: the full build preserves the
name invariant. -/
theorem buildCatalogue_inv {actions : List ActionInfo} {options : BridgeOptionsM}
    {stF : CatState} (h : buildCatalogue actions options = .ok stF) : catInv stF := by
  simp only [buildCatalogue] at h
  cases hC : processCustomTools options.tools (filterAllowedActions actions options.allow)
      initCatState with
  | error e =>
    simp only [hC] at h
    cases h
  | ok stC =>
    simp only [hC] at h
    exact processRemainingActions_inv options.tools _ stC stF
      (processCustomTools_inv options.tools _ initCatState stC catInv_init hC) h

/-- C1 amended: after a successful catalogue build every tool name is a
nonempty string of ASCII letters, digits and underscores of length at most
68 (at most 64 for the sanitized base, plus an underscore and at most
three digits when a collision suffix was appended), and the tool names are
pairwise distinct; two actions that sanitize to the same name "a_b"
receive the distinct tool names "a_b" and "a_b_1". -/
theorem claim_C1_amended_names_legal_distinct :
    (∀ (actions : List ActionInfo) (options : BridgeOptionsM) (stF : CatState),
      buildCatalogue actions options = .ok stF →
      (∀ e ∈ stF.entries, 1 ≤ e.toolName.length ∧
        e.toolName.toList.all legalChar = true ∧ e.toolName.length ≤ 68) ∧
      (stF.entries.map (fun e => e.toolName)).Nodup) ∧
    (buildCatalogue [⟨"a.b", none, none⟩, ⟨"a_b", none, none⟩]
        (BridgeOptionsM.mk ["*"] [])).map (fun st => st.entries.map (fun e => e.toolName)) =
      .ok ["a_b", "a_b_1"] := by
  constructor
  · intro actions options stF h
    obtain ⟨hgood, -, hnodup⟩ := buildCatalogue_inv h
    refine ⟨?_, hnodup⟩
    intro e he
    obtain ⟨g1, g2, g3⟩ := hgood e he
    exact ⟨g1, g3, g2⟩
  · have hsan1 : NameSanitizer.sanitizeActionName "a.b" = .ok "a_b" := rfl
    have hsan2 : NameSanitizer.sanitizeActionName "a_b" = .ok "a_b" := rfl
    have heu1 : NameSanitizer.ensureUnique "a_b" ([] : List String) = .ok "a_b" := by
      rw [NameSanitizer.ensureUnique]
      exact ensureUniqueLoop_not_mem (by simp)
    have heu2 : NameSanitizer.ensureUnique "a_b" ["a_b"] = .ok "a_b_1" := by
      rw [NameSanitizer.ensureUnique,
        ensureUniqueLoop_mem_step (by simp) (by omega),
        ensureUniqueLoop_not_mem (by decide)]
      decide
    simp only [buildCatalogue, filterAllowedActions, isActionAllowed, initCatState,
      processCustomTools, processRemainingActions, createToolConfig, recordSet,
      List.filter_cons, List.filter_nil, List.any_cons, List.any_nil,
      List.nil_append, List.append_nil, hsan1, hsan2, heu1, heu2,
      Except.map, List.map_cons, List.map_nil]
    simp

/-- Witness for the amended C1 at the empty build. -/
theorem claim_C1_amended_names_legal_distinct_witness :
    (∀ e ∈ initCatState.entries, 1 ≤ e.toolName.length ∧
      e.toolName.toList.all legalChar = true ∧ e.toolName.length ≤ 68) ∧
    (initCatState.entries.map (fun e => e.toolName)).Nodup :=
  claim_C1_amended_names_legal_distinct.1 [] (BridgeOptionsM.mk [] []) initCatState rfl

/-- C1 counterexample: two custom tools whose requested names both sanitize
to the same 64-character string build successfully, but the second tool
name receives the collision suffix "_1" and has 66 characters — it no
longer matches the claimed pattern of 1 to 64 legal characters. -/
theorem claim_C1_counterexample :
    (buildCatalogue [⟨"x", none, none⟩, ⟨"y", none, none⟩]
        (BridgeOptionsM.mk ["*"]
          [⟨"aaaaaaaaaaaaaaaaaaaaaaaaaaaaaaaaaaaaaaaaaaaaaaaaaaaaaaaaaaaaaaaa", "x", "d", none⟩, ⟨"aaaaaaaaaaaaaaaaaaaaaaaaaaaaaaaaaaaaaaaaaaaaaaaaaaaaaaaaaaaaaaaa", "y", "d", none⟩])).map
      (fun st => st.entries.map (fun e => e.toolName)) =
      .ok ["aaaaaaaaaaaaaaaaaaaaaaaaaaaaaaaaaaaaaaaaaaaaaaaaaaaaaaaaaaaaaaaa",
        "aaaaaaaaaaaaaaaaaaaaaaaaaaaaaaaaaaaaaaaaaaaaaaaaaaaaaaaaaaaaaaaa_1"] ∧
    ("aaaaaaaaaaaaaaaaaaaaaaaaaaaaaaaaaaaaaaaaaaaaaaaaaaaaaaaaaaaaaaaa_1" : String).length = 66 ∧
    validNamePattern
      ("aaaaaaaaaaaaaaaaaaaaaaaaaaaaaaaaaaaaaaaaaaaaaaaaaaaaaaaaaaaaaaaa_1" : String).toList = false := by
  have hsf : NameSanitizer.stripForbidden
      "aaaaaaaaaaaaaaaaaaaaaaaaaaaaaaaaaaaaaaaaaaaaaaaaaaaaaaaaaaaaaaaa" =
      "aaaaaaaaaaaaaaaaaaaaaaaaaaaaaaaaaaaaaaaaaaaaaaaaaaaaaaaaaaaaaaaa" := rfl
  have hfind1 : List.find? (fun a => a.name == "x")
      [(⟨"x", none, none⟩ : ActionInfo), ⟨"y", none, none⟩] =
      some ⟨"x", none, none⟩ := rfl
  have hfind2 : List.find? (fun a => a.name == "y")
      [(⟨"x", none, none⟩ : ActionInfo), ⟨"y", none, none⟩] =
      some ⟨"y", none, none⟩ := rfl
  have heu1 : NameSanitizer.ensureUnique
      "aaaaaaaaaaaaaaaaaaaaaaaaaaaaaaaaaaaaaaaaaaaaaaaaaaaaaaaaaaaaaaaa" ([] : List String) =
      .ok "aaaaaaaaaaaaaaaaaaaaaaaaaaaaaaaaaaaaaaaaaaaaaaaaaaaaaaaaaaaaaaaa" := by
    rw [NameSanitizer.ensureUnique]
    exact ensureUniqueLoop_not_mem (by simp)
  have heu2 : NameSanitizer.ensureUnique
      "aaaaaaaaaaaaaaaaaaaaaaaaaaaaaaaaaaaaaaaaaaaaaaaaaaaaaaaaaaaaaaaa"
      ["aaaaaaaaaaaaaaaaaaaaaaaaaaaaaaaaaaaaaaaaaaaaaaaaaaaaaaaaaaaaaaaa"] =
      .ok "aaaaaaaaaaaaaaaaaaaaaaaaaaaaaaaaaaaaaaaaaaaaaaaaaaaaaaaaaaaaaaaa_1" := by
    rw [NameSanitizer.ensureUnique,
      ensureUniqueLoop_mem_step (by simp) (by omega),
      ensureUniqueLoop_not_mem (by decide)]
    decide
  refine ⟨?_, by decide, by decide⟩
  simp only [buildCatalogue, filterAllowedActions, isActionAllowed, initCatState,
    processCustomTools, processRemainingActions, List.filter_cons, List.filter_nil,
    List.any_cons, List.any_nil, hfind1, hfind2, hsf, heu1, heu2, createToolConfig,
    recordSet, List.nil_append, List.append_nil, Except.map, List.map_cons, List.map_nil]
  simp
